import Mathlib

/-!
Verification of the article store and fetch pipeline of `zet-rss.nvim`
(`src/cache.rs`, `src/main.rs`), over a shallow embedding.

Text is modelled as `List Char`.  The embedding follows the Rust source:
`rustLines` models `str::lines` (split on newline, optional final line
terminator, a trailing carriage return stripped from each line),
`splitn3` models `str::splitn(3, pat)`, `strContains` models
`str::contains`, `trimStr` models `str::trim`.  Timestamps are modelled
as natural numbers (seconds); the chrono formatting functions
(`%Y%m%d-%H%M%S` and RFC3339) are abstracted as the decimal rendering of
the second count, which keeps the property every claim uses: rendering
is deterministic and injective per second.  Unicode-aware character
classification (`is_alphanumeric`, `is_whitespace`, `to_lowercase`) is
modelled by Lean's ASCII `Char` predicates; all claims and tests in the
repository use ASCII data.

The on-disk articles directory is modelled as an association list from
filename to file content; every mutating cache operation additionally
exposes the list of filesystem operations (`FsOp`) it performs, which is
what the crash-safety claim is about.
-/

namespace ZetRss

abbrev Str := List Char

/-- Model of `str::starts_with` on our string model. -/
def strStartsWith (pre s : Str) : Bool := List.isPrefixOf pre s

/-- Model of `str::split_once(c)`: split at the first occurrence of the
character `c`. -/
def splitOnceChar (c : Char) : Str → Option (Str × Str)
  | [] => none
  | x :: xs =>
    if x = c then some ([], xs)
    else (splitOnceChar c xs).map (fun p => (x :: p.1, p.2))

/-- Split at the first occurrence of the substring `sep` (the recursion
behind `splitn` / `contains` with a string pattern). -/
def splitOnceSub (sep : Str) : Str → Option (Str × Str)
  | [] => if sep = [] then some ([], []) else none
  | x :: xs =>
    if strStartsWith sep (x :: xs) then some ([], (x :: xs).drop sep.length)
    else (splitOnceSub sep xs).map (fun p => (x :: p.1, p.2))

/-- Model of `str::contains` with a string pattern. -/
def strContains (s needle : Str) : Bool := (splitOnceSub needle s).isSome

/-- Model of `str::splitn(3, sep)` (at most three pieces, scanning
left to right). -/
def splitn3 (sep s : Str) : List Str :=
  match splitOnceSub sep s with
  | none => [s]
  | some (a, r) =>
    match splitOnceSub sep r with
    | none => [a, r]
    | some (b, c) => [a, b, c]

/-- Split on every occurrence of a character; always returns at least
one (possibly empty) piece. -/
def splitChar (c : Char) : Str → List Str
  | [] => [[]]
  | x :: xs =>
    match splitChar c xs with
    | [] => [[]]
    | h :: t => if x = c then [] :: h :: t else (x :: h) :: t

/-- Drop one trailing empty piece (`str::lines` treats a final line
terminator as optional). -/
def dropLastEmpty (ls : List Str) : List Str :=
  if ls.getLast? = some [] then ls.dropLast else ls

/-- Strip one trailing carriage return from a line. -/
def stripCR (l : Str) : Str :=
  if l.getLast? = some '\r' then l.dropLast else l

/-- Model of `str::lines`. -/
def rustLines (s : Str) : List Str :=
  if s = [] then [] else (dropLastEmpty (splitChar '\n' s)).map stripCR

/-- Join lines with a newline separator (`Vec::join("\n")`). -/
def joinLines : List Str → Str
  | [] => []
  | [l] => l
  | l :: l2 :: ls => l ++ '\n' :: joinLines (l2 :: ls)

/-- Model of `str::trim` (ASCII whitespace). -/
def trimStr (s : Str) : Str :=
  ((s.dropWhile Char.isWhitespace).reverse.dropWhile Char.isWhitespace).reverse

/-- Model of `str::to_lowercase`, character-wise (ASCII). -/
def lowerStr (s : Str) : Str := s.map Char.toLower

/-- Timestamp model: seconds, rendered in decimal.  Stands for both
chrono's `%Y%m%d-%H%M%S` filename stamp and the RFC3339 date rendering,
which are deterministic and injective at second granularity. -/
def fmtTs (t : Nat) : Str := (Nat.repr t).data

/-- Model of RFC3339 parsing on the model rendering: a non-empty digit
string parses back to the second count, anything else fails (chrono's
parser returns an error that the cache maps to `None`). -/
def parseTs (s : Str) : Option Nat :=
  if s ≠ [] ∧ s.all Char.isDigit then
    some (s.foldl (fun n c => n * 10 + (c.toNat - 48)) 0)
  else none

/-- `models.rs`: the `FeedItem` record. -/
structure FeedItem where
  id : Str
  feed_url : Str
  title : Str
  link : Str
  description : Option Str
  published : Option Nat
  author : Option Str
  content : Option Str
  read : Bool
  starred : Bool
deriving DecidableEq

/-- `cache.rs sanitize_filename`: keep alphanumerics, dash and
underscore, replace the rest with underscore, truncate to 50 chars. -/
def sanitizeFilename (s : Str) : Str :=
  (s.map (fun c => if c.isAlphanum || c = '-' || c = '_' then c else '_')).take 50

/-- The articles directory: filename to file content, first match wins. -/
abbrev FS := List (Str × Str)

def fsLookup : FS → Str → Option Str
  | [], _ => none
  | (k, v) :: rest, key => if k = key then some v else fsLookup rest key

/-- Overwrite the entry at `key` in place, append if absent
(`fs::write` at the file level). -/
def fsWrite : FS → Str → Str → FS
  | [], key, v => [(key, v)]
  | (k, v0) :: rest, key, v =>
    if k = key then (key, v) :: rest else (k, v0) :: fsWrite rest key v

/-- Filesystem operations a cache call performs; the source only ever
emits whole-file writes (`fs::write`), never a rename. -/
inductive FsOp where
  | write (path : Str) (content : Str)
  | rename (src dst : Str)
deriving DecidableEq

def applyOp (fs : FS) : FsOp → FS
  | .write p c => fsWrite fs p c
  | .rename _ _ => fs

def applyOps (fs : FS) (ops : List FsOp) : FS := ops.foldl applyOp fs

/-- Error taxonomy of the store (anyhow errors, distinguished by the
message the source attaches). -/
inductive StoreErr where
  | notFound
  | malformed
deriving DecidableEq

/-- `cache.rs store_article`: filename is the published timestamp
(ingestion time when absent) followed by the sanitized id. -/
def articleFilename (item : FeedItem) (now : Nat) : Str :=
  fmtTs (item.published.getD now) ++ '-' :: sanitizeFilename item.id ++ ".md".data

/-- Newline collapsing applied to the title header line
(`item.title.replace('\n', " ")`). -/
def collapseNl (s : Str) : Str := s.map (fun c => if c = '\n' then ' ' else c)

/-- `cache.rs store_article`: the markdown-with-frontmatter encoding of
an article. -/
def encodeArticle (item : FeedItem) (now : Nat) : Str :=
  "---\nid: ".data ++ item.id ++
  "\nfeed: ".data ++ item.feed_url ++
  "\ntitle: ".data ++ collapseNl item.title ++
  "\nlink: ".data ++ item.link ++
  "\nauthor: ".data ++ item.author.getD [] ++
  "\ndate: ".data ++ fmtTs (item.published.getD now) ++
  "\nread: false\nstarred: false\n---\n\n# ".data ++ item.title ++
  "\n\n".data ++ item.description.getD [] ++
  "\n\n".data ++ item.content.getD [] ++
  "\n\n[Read original](".data ++ item.link ++ ")\n".data

/-- `cache.rs store_article`, as the filesystem operations it emits:
nothing when the computed filename already exists, otherwise one direct
whole-file write of the encoding to the final path. -/
def storeArticleOps (fs : FS) (item : FeedItem) (now : Nat) : List FsOp :=
  if (fsLookup fs (articleFilename item now)).isSome then []
  else [.write (articleFilename item now) (encodeArticle item now)]

/-- `cache.rs store_article`, at the level of the resulting store. -/
def storeArticle (fs : FS) (item : FeedItem) (now : Nat) : FS :=
  applyOps fs (storeArticleOps fs item now)

/-- The filename the point operations use: the raw id with `.md`
appended (`self.articles_dir.join(format!("{}.md", article_id))`). -/
def idFilename (id : Str) : Str := id ++ ".md".data

/-- Accumulator of the frontmatter scan in `parse_article_file`. -/
structure ScanAcc where
  id : Str
  feed_url : Str
  title : Str
  link : Str
  author : Option Str
  published : Option Nat
  read : Bool
  starred : Bool
deriving DecidableEq

def accInit : ScanAcc :=
  { id := [], feed_url := [], title := [], link := [],
    author := none, published := none, read := false, starred := false }

/-- One frontmatter line of `parse_article_file`: `split_once(':')`,
trim key and value, match on the known keys, ignore the rest. -/
def scanLine (acc : ScanAcc) (line : Str) : ScanAcc :=
  match splitOnceChar ':' line with
  | none => acc
  | some (k0, v0) =>
    let k := trimStr k0
    let v := trimStr v0
    if k = "id".data then { acc with id := v }
    else if k = "feed".data then { acc with feed_url := v }
    else if k = "title".data then { acc with title := v }
    else if k = "link".data then { acc with link := v }
    else if k = "author".data then
      if v = [] then acc else { acc with author := some v }
    else if k = "date".data then { acc with published := parseTs v }
    else if k = "read".data then { acc with read := v = "true".data }
    else if k = "starred".data then { acc with starred := v = "true".data }
    else acc

def scanFront (ls : List Str) : ScanAcc := ls.foldl scanLine accInit

/-- The record built from the frontmatter piece and the body piece in
`parse_article_file`. -/
def mkItemFrom (front body : Str) : FeedItem :=
  let acc := scanFront (rustLines front)
  { id := acc.id, feed_url := acc.feed_url, title := acc.title,
    link := acc.link, description := some body,
    published := acc.published, author := acc.author,
    content := some body, read := acc.read, starred := acc.starred }

/-- `cache.rs parse_article_file`: split on `---` into at most three
pieces, scan the second as frontmatter, the third becomes both
`description` and `content`. -/
def parseArticleFile (content : Str) : Except StoreErr FeedItem :=
  match splitn3 "---".data content with
  | [_, front, body] => .ok (mkItemFrom front body)
  | _ => .error .malformed

/-- `cache.rs get_article_by_id`: O(1) lookup of `{id}.md`. -/
def getArticleById (fs : FS) (id : Str) : Except StoreErr (Option FeedItem) :=
  match fsLookup fs (idFilename id) with
  | none => .ok none
  | some content => (parseArticleFile content).map some

/-- One line of the rewrite inside `update_article_state`: a line
starting with the `"{field}: "` prefix becomes the prefix followed by
the new value, any other line is kept. -/
def replLine (pre val line : Str) : Str :=
  if strStartsWith pre line then pre ++ val else line

/-- The line rewrite inside `update_article_state`: every line starting
with `"{field}: "` becomes `"{field}: {value}"`, lines rejoined with
newlines. -/
def updateContent (content field value : Str) : Str :=
  joinLines ((rustLines content).map (replLine (field ++ ": ".data) value))

/-- `cache.rs update_article_state`, as emitted filesystem operations:
error when `{id}.md` is absent, otherwise one direct whole-file write of
the rewritten text back to the same path. -/
def updateArticleStateOps (fs : FS) (id field value : Str) :
    Except StoreErr (List FsOp) :=
  match fsLookup fs (idFilename id) with
  | none => .error .notFound
  | some content => .ok [.write (idFilename id) (updateContent content field value)]

/-- `cache.rs update_article_state`, at the level of the store: the
returned store and the `Result` the call produces. -/
def updateArticleState (fs : FS) (id field value : Str) :
    FS × Except StoreErr Unit :=
  match updateArticleStateOps fs id field value with
  | .error e => (fs, .error e)
  | .ok ops => (applyOps fs ops, .ok ())

/-- `cache.rs mark_as_read`. -/
def markAsRead (fs : FS) (id : Str) : FS × Except StoreErr Unit :=
  updateArticleState fs id "read".data "true".data

/-- `cache.rs mark_as_unread`. -/
def markAsUnread (fs : FS) (id : Str) : FS × Except StoreErr Unit :=
  updateArticleState fs id "read".data "false".data

/-- `cache.rs toggle_star`: read `{id}.md`, detect the current state as
`content.contains("starred: true")`, then write the flipped value. -/
def toggleStar (fs : FS) (id : Str) : FS × Except StoreErr Unit :=
  match fsLookup fs (idFilename id) with
  | none => (fs, .error .notFound)
  | some content =>
    let isStarred := strContains content "starred: true".data
    updateArticleState fs id "starred".data
      (if isStarred then "false".data else "true".data)

/-- `Path::extension() == "md"`: the name ends in `.md` with a
non-empty stem. -/
def hasMdExt (name : Str) : Bool :=
  3 < name.length && List.isSuffixOf ".md".data name

/-- Rust's `Option::cmp`-induced `le` on `Option<DateTime>`: `None`
sorts below every `Some`. -/
def optLe : Option Nat → Option Nat → Bool
  | none, _ => true
  | some _, none => false
  | some a, some b => a ≤ b

/-- The comparator `search_articles` sorts with:
`b.published.cmp(&a.published)` ascending, i.e. `published`
descending with absent dates last. -/
def pubDesc (a b : FeedItem) : Prop := optLe b.published a.published

instance : DecidableRel pubDesc := fun a b => by
  unfold pubDesc; infer_instance

instance : IsTotal FeedItem pubDesc := by
  constructor
  intro a b
  unfold pubDesc optLe
  rcases a.published with _ | x <;> rcases b.published with _ | y <;> simp
  omega

instance : IsTrans FeedItem pubDesc := by
  constructor
  intro a b c
  unfold pubDesc optLe
  rcases a.published with _ | x <;> rcases b.published with _ | y <;>
    rcases c.published with _ | z <;> simp
  omega

/-- `cache.rs search_articles`: scan `.md` files, keep those whose raw
text contains the query case-insensitively, drop files that fail to
parse, sort by `published` descending. -/
def searchArticles (fs : FS) (query : Str) : List FeedItem :=
  List.insertionSort pubDesc
    (fs.filterMap (fun nc =>
      if hasMdExt nc.1 && strContains (lowerStr nc.2) (lowerStr query) then
        (parseArticleFile nc.2).toOption
      else none))

/-- `cache.rs get_unread_count`: count `.md` files whose raw text
contains the substring `"read: false"` anywhere. -/
def getUnreadCount (fs : FS) : Nat :=
  fs.countP (fun nc => hasMdExt nc.1 && strContains nc.2 "read: false".data)

/-- A directory entry as `get_articles` sees it: name, modification
time, content. -/
structure Entry where
  name : Str
  mtime : Nat
  content : Str
deriving DecidableEq

/-- `sort_by_key(modified)` ascending on entries. -/
def mtimeLe (a b : Entry) : Prop := a.mtime ≤ b.mtime

instance : DecidableRel mtimeLe := fun a b => by
  unfold mtimeLe; infer_instance

instance : IsTotal Entry mtimeLe :=
  ⟨fun a b => Nat.le_total a.mtime b.mtime⟩

instance : IsTrans Entry mtimeLe :=
  ⟨fun _ _ _ h h2 => Nat.le_trans h h2⟩

/-- `cache.rs get_articles`: filter to `.md` entries, sort by
modification time ascending then reverse, truncate to the limit (the
entry count when no limit is given), then parse, silently skipping
entries that fail to parse. -/
def getArticles (entries : List Entry) (limit : Option Nat) : List FeedItem :=
  let es := entries.filter (fun e => hasMdExt e.name)
  let sorted := (List.insertionSort mtimeLe es).reverse
  let lim := limit.getD sorted.length
  (sorted.take lim).filterMap (fun e => (parseArticleFile e.content).toOption)

/-! ## Fetch orchestrator (`main.rs`, `Commands::Fetch`)

Each feed URL becomes one task: acquire a slot from a counting
semaphore of size 5, fetch, and on fetch success store the feed; the
slot is held until the end of the task body on every path (the permit
is an RAII guard dropped at the end of the async block, in both match
arms).  `buffer_unordered(5)` adds a second, identical bound and is
subsumed by the semaphore in the model.  The interleaving of tasks is
left entirely to the scheduler: any order of the enabled transitions
below.  Fetch and store outcomes are oracles indexed by task. -/

inductive Phase where
  | idle
  | fetching
  | storing
  | done
deriving DecidableEq

/-- Orchestrator state: one phase per task, plus the log of feed
indices whose articles were successfully stored. -/
structure OrchState where
  phases : List Phase
  storedLog : List Nat
deriving DecidableEq

def maxConcurrent : Nat := 5

/-- A task holds a semaphore slot from `acquire` (start of the async
block) to the end of the block — through the fetch and, on success,
the store call. -/
def isActive : Phase → Bool
  | .fetching => true
  | .storing => true
  | _ => false

/-- Tasks currently holding a semaphore slot. -/
def inFlight (st : OrchState) : Nat := st.phases.countP isActive

def allDone (st : OrchState) : Prop :=
  ∀ p ∈ st.phases, p = Phase.done

/-- One scheduler step; the task is identified by its position
`pre.length` in the task list.  `start` needs a free slot; `fetched`
follows the `match` in the task body: a fetch error releases the slot
at once (task done), success proceeds to the store call; `storedStep`
finishes the store call (recording success per the store oracle) and
releases the slot. -/
inductive OrchStep (fOk sOk : Nat → Bool) : OrchState → OrchState → Prop
  | start (st : OrchState) (pre post : List Phase) :
      st.phases = pre ++ .idle :: post →
      inFlight st < maxConcurrent →
      OrchStep fOk sOk st { st with phases := pre ++ .fetching :: post }
  | fetched (st : OrchState) (pre post : List Phase) :
      st.phases = pre ++ .fetching :: post →
      OrchStep fOk sOk st
        { st with phases :=
            pre ++ (if fOk pre.length then Phase.storing else Phase.done) :: post }
  | storedStep (st : OrchState) (pre post : List Phase) :
      st.phases = pre ++ .storing :: post →
      OrchStep fOk sOk st
        { phases := pre ++ Phase.done :: post,
          storedLog := if sOk pre.length then st.storedLog ++ [pre.length]
                       else st.storedLog }

/-- Initial state for `n` feed URLs. -/
def orchInit (n : Nat) : OrchState :=
  { phases := List.replicate n .idle, storedLog := [] }

inductive OrchReach (fOk sOk : Nat → Bool) (n : Nat) : OrchState → Prop
  | init : OrchReach fOk sOk n (orchInit n)
  | step {s t : OrchState} : OrchReach fOk sOk n s → OrchStep fOk sOk s t →
      OrchReach fOk sOk n t

/-- No scheduler step is enabled. -/
def OrchTerminal (fOk sOk : Nat → Bool) (st : OrchState) : Prop :=
  ¬ ∃ t, OrchStep fOk sOk st t

/-- Remaining work of one task. -/
def phaseWeight : Phase → Nat
  | .idle => 3
  | .fetching => 2
  | .storing => 1
  | .done => 0

/-- Remaining work of the whole batch; every scheduler step strictly
decreases it, so every maximal schedule is finite. -/
def orchMeasure (st : OrchState) : Nat := (st.phases.map phaseWeight).sum

/-- The property claimed of every write: article content reaches a
final `.md` path only via rename of a temporary file, never by a
direct write to the `.md` path. -/
def opsAvoidDirectFinalWrites (ops : List FsOp) : Bool :=
  ops.all (fun op => match op with
    | .write p _ => !(hasMdExt p)
    | .rename _ _ => true)

end ZetRss

deriving instance DecidableEq for Except

namespace ZetRss

/-! ## String model lemmas -/

theorem mem_of_getLast?_eq {α : Type} {l : List α} {a : α} :
    l.getLast? = some a → a ∈ l := by
  induction l with
  | nil => simp
  | cons x xs ih =>
    intro h
    cases xs with
    | nil => simp at h; simp [h]
    | cons y ys =>
      rw [List.getLast?_cons_cons] at h
      exact List.mem_cons_of_mem _ (ih h)

theorem joinLines_append (A B : List Str) (hA : A ≠ []) (hB : B ≠ []) :
    joinLines (A ++ B) = joinLines A ++ '\n' :: joinLines B := by
  induction A with
  | nil => simp at hA
  | cons a A' ih =>
    cases A' with
    | nil =>
      cases B with
      | nil => simp at hB
      | cons b B' => simp [joinLines]
    | cons a2 A'' =>
      have h1 : joinLines (a2 :: A'' ++ B) =
          joinLines (a2 :: A'') ++ '\n' :: joinLines B := ih (by simp)
      calc joinLines (a :: a2 :: A'' ++ B)
          = a ++ '\n' :: joinLines (a2 :: A'' ++ B) := rfl
        _ = a ++ '\n' :: (joinLines (a2 :: A'') ++ '\n' :: joinLines B) := by
            rw [h1]
        _ = (a ++ '\n' :: joinLines (a2 :: A'')) ++ '\n' :: joinLines B := by
            simp
        _ = joinLines (a :: a2 :: A'') ++ '\n' :: joinLines B := rfl

theorem joinLines_concat_newline (L : List Str) (hL : L ≠ []) :
    joinLines L ++ ['\n'] = joinLines (L ++ [[]]) := by
  rw [joinLines_append L [[]] hL (by simp)]
  simp [joinLines]

theorem splitChar_ne_nil (c : Char) (s : Str) : splitChar c s ≠ [] := by
  cases s with
  | nil => simp [splitChar]
  | cons x xs =>
    simp only [splitChar]
    cases h : splitChar c xs with
    | nil => simp
    | cons hh tt =>
      by_cases hx : x = c <;> simp [hx]

theorem splitChar_of_not_mem {c : Char} {s : Str} (h : c ∉ s) :
    splitChar c s = [s] := by
  induction s with
  | nil => simp [splitChar]
  | cons x xs ih =>
    have hx : x ≠ c := fun he => h (he ▸ List.mem_cons_self x xs)
    have hxs : c ∉ xs := fun hm => h (List.mem_cons_of_mem x hm)
    simp only [splitChar, ih hxs]
    simp [hx]

theorem splitChar_append {c : Char} {a : Str} (b : Str) (h : c ∉ a) :
    splitChar c (a ++ c :: b) = a :: splitChar c b := by
  induction a with
  | nil =>
    simp only [List.nil_append, splitChar]
    cases hb : splitChar c b with
    | nil => exact absurd hb (splitChar_ne_nil c b)
    | cons hh tt => simp
  | cons x a' ih =>
    have hx : x ≠ c := fun he => h (he ▸ List.mem_cons_self x a')
    have ha' : c ∉ a' := fun hm => h (List.mem_cons_of_mem x hm)
    simp only [List.cons_append, splitChar, List.append_eq]
    rw [ih ha']
    simp [hx]

theorem splitChar_joinLines {L : List Str} (hL : L ≠ [])
    (h : ∀ l ∈ L, '\n' ∉ l) : splitChar '\n' (joinLines L) = L := by
  induction L with
  | nil => simp at hL
  | cons l L' ih =>
    cases L' with
    | nil =>
      simp only [joinLines]
      exact splitChar_of_not_mem (h l (by simp))
    | cons l2 L'' =>
      have hjoin : joinLines (l :: l2 :: L'') = l ++ '\n' :: joinLines (l2 :: L'') :=
        rfl
      rw [hjoin, splitChar_append _ (h l (by simp))]
      rw [ih (by simp) (fun x hx => h x (List.mem_cons_of_mem l hx))]

theorem joinLines_ne_nil {L : List Str} (hL : L ≠ [])
    (hlast : L.getLast? ≠ some []) : joinLines L ≠ [] := by
  cases L with
  | nil => simp at hL
  | cons l L' =>
    cases L' with
    | nil =>
      simp only [joinLines]
      intro he
      exact hlast (by simp [he])
    | cons l2 L'' =>
      simp [joinLines]

theorem stripCR_of_ok {l : Str} (h : l.getLast? ≠ some '\r') :
    stripCR l = l := by
  rw [stripCR, if_neg h]

theorem rustLines_join_newline {L : List Str} (hL : L ≠ [])
    (h : ∀ l ∈ L, '\n' ∉ l ∧ l.getLast? ≠ some '\r') :
    rustLines (joinLines L ++ ['\n']) = L := by
  rw [joinLines_concat_newline L hL]
  have hne : joinLines (L ++ [[]]) ≠ [] := by
    rw [← joinLines_concat_newline L hL]
    simp
  rw [rustLines, if_neg hne]
  rw [splitChar_joinLines (by simp) (by
    intro l hl
    rcases List.mem_append.mp hl with h1 | h1
    · exact (h l h1).1
    · simp at h1; simp [h1])]
  rw [dropLastEmpty, if_pos (List.getLast?_concat L), List.dropLast_concat]
  calc L.map stripCR = L.map id :=
    List.map_congr_left (fun x hx => stripCR_of_ok (h x hx).2)
  _ = L := List.map_id L

theorem rustLines_join {L : List Str}
    (h : ∀ l ∈ L, '\n' ∉ l ∧ l.getLast? ≠ some '\r')
    (hlast : L.getLast? ≠ some []) : rustLines (joinLines L) = L := by
  cases hL : L with
  | nil => simp [joinLines, rustLines]
  | cons l L' =>
    rw [← hL]
    have hLne : L ≠ [] := by simp [hL]
    have hne := joinLines_ne_nil hLne hlast
    rw [rustLines, if_neg hne, splitChar_joinLines hLne (fun x hx => (h x hx).1)]
    rw [dropLastEmpty, if_neg hlast]
    have : ∀ l ∈ L, stripCR l = l := fun x hx => stripCR_of_ok (h x hx).2
    calc L.map stripCR = L.map id := List.map_congr_left (fun x hx => this x hx)
    _ = L := List.map_id L

/-! ## Substring search lemmas -/

theorem splitOnceSub_isSome_iff (sep s : Str) :
    (splitOnceSub sep s).isSome ↔ sep <:+: s := by
  induction s with
  | nil =>
    by_cases h : sep = [] <;> simp [splitOnceSub, h, List.infix_nil]
  | cons x xs ih =>
    by_cases hp : strStartsWith sep (x :: xs) = true
    · have : sep <+: x :: xs := List.isPrefixOf_iff_prefix.mp hp
      simp [splitOnceSub, hp, this.isInfix]
    · rw [List.infix_cons_iff]
      have hnp : ¬ sep <+: x :: xs := fun hc =>
        hp (List.isPrefixOf_iff_prefix.mpr hc)
      simp [splitOnceSub, hp, hnp, ih]

theorem strContains_iff {s needle : Str} :
    strContains s needle = true ↔ needle <:+: s := by
  rw [strContains]
  exact splitOnceSub_isSome_iff needle s

theorem infix_append_cons {t a b : Str} {c : Char} (hc : c ∉ t) :
    t <:+: a ++ c :: b → t <:+: a ∨ t <:+: b := by
  rintro ⟨u, v, huv⟩
  by_cases h1 : u.length + t.length ≤ a.length
  · left
    have htake : (u ++ t ++ v).take (u.length + t.length) = u ++ t := by
      have : u ++ t ++ v = (u ++ t) ++ v := by simp
      rw [this]
      have hlen : u.length + t.length = (u ++ t).length := by simp
      rw [hlen, List.take_left]
    have htake2 : (a ++ c :: b).take (u.length + t.length) =
        a.take (u.length + t.length) := List.take_append_of_le_length h1
    have hpre : u ++ t <+: a := by
      rw [← htake, huv, htake2]
      exact List.take_prefix _ a
    have ht : t <:+: u ++ t := ⟨u, [], by simp⟩
    exact ht.trans hpre.isInfix
  · by_cases h2 : a.length + 1 ≤ u.length
    · right
      have hac : (a ++ [c]) <+: a ++ c :: b := ⟨b, by simp⟩
      have hu : u <+: a ++ c :: b := ⟨t ++ v, by rw [← huv, List.append_assoc]⟩
      have hprefix : (a ++ [c]) <+: u :=
        List.prefix_of_prefix_length_le hac hu (by simp; omega)
      rcases hprefix with ⟨u', hu'⟩
      have hb : b = u' ++ t ++ v := by
        have h5 : a ++ c :: b = a ++ c :: (u' ++ t ++ v) := by
          rw [← huv, ← hu']
          simp
        have h6 := List.append_cancel_left h5
        simpa using h6
      exact ⟨u', v, by rw [hb]⟩
    · exfalso
      have hua : u.length ≤ a.length := by omega
      have hlt : a.length < u.length + t.length := by omega
      have e1 : (a ++ c :: b)[a.length]? = some c := by
        rw [List.getElem?_append_right (le_refl _)]
        simp
      have e2 : (u ++ (t ++ v))[a.length]? = (t ++ v)[a.length - u.length]? :=
        List.getElem?_append_right hua
      have e3 : (t ++ v)[a.length - u.length]? = t[a.length - u.length]? := by
        rw [List.getElem?_append]
        have : a.length - u.length < t.length := by omega
        simp [this]
      have e4 : t[a.length - u.length]? = some c := by
        rw [← e3, ← e2]
        have : u ++ (t ++ v) = u ++ t ++ v := by simp
        rw [this, huv, e1]
      rcases List.getElem?_eq_some_iff.mp e4 with ⟨hlt2, hget⟩
      exact hc (hget ▸ List.getElem_mem hlt2)

theorem infix_joinLines {t : Str} (L : List Str) (ht : '\n' ∉ t)
    (htne : t ≠ []) : t <:+: joinLines L ↔ ∃ l ∈ L, t <:+: l := by
  induction L with
  | nil => simp [joinLines, List.infix_nil, htne]
  | cons l L' ih =>
    cases L' with
    | nil => simp [joinLines]
    | cons l2 L'' =>
      have hjoin : joinLines (l :: l2 :: L'') = l ++ '\n' :: joinLines (l2 :: L'') :=
        rfl
      rw [hjoin]
      constructor
      · intro h
        rcases infix_append_cons ht h with h1 | h1
        · exact ⟨l, by simp, h1⟩
        · rcases ih.mp h1 with ⟨l', hl', hinf⟩
          exact ⟨l', List.mem_cons_of_mem l hl', hinf⟩
      · rintro ⟨l', hl', hinf⟩
        rcases List.mem_cons.mp hl' with rfl | hl2
        · exact hinf.trans (List.prefix_append l' _).isInfix
        · have h1 : t <:+: joinLines (l2 :: L'') := ih.mpr ⟨l', hl2, hinf⟩
          have h2 : joinLines (l2 :: L'') <:+ l ++ '\n' :: joinLines (l2 :: L'') :=
            ⟨l ++ ['\n'], by simp⟩
          exact h1.trans h2.isInfix

theorem splitOnceSub_prefix_self (sep v : Str) (hsep : sep ≠ []) :
    splitOnceSub sep (sep ++ v) = some ([], v) := by
  cases sep with
  | nil => simp at hsep
  | cons c cs =>
    have hpre : strStartsWith (c :: cs) (c :: (cs ++ v)) = true := by
      unfold strStartsWith
      apply List.isPrefixOf_iff_prefix.mpr
      show (c :: cs) <+: (c :: cs) ++ v
      exact List.prefix_append _ _
    simp only [List.cons_append]
    rw [splitOnceSub, if_pos hpre]
    have hd : (c :: (cs ++ v)).drop (c :: cs).length = v := by
      show ((c :: cs) ++ v).drop (c :: cs).length = v
      rw [List.drop_left]
    rw [hd]

theorem splitOnceSub_append_first {sep : Str} (w v : Str) (hsep : sep ≠ [])
    (hnl : '\n' ∉ sep) (hw : ¬ sep <:+: w) (hlast : w.getLast? = some '\n') :
    splitOnceSub sep (w ++ sep ++ v) = some (w, v) := by
  induction w with
  | nil => simp at hlast
  | cons x w' ih =>
    have hnp : ¬ strStartsWith sep (x :: (w' ++ sep ++ v)) = true := by
      intro hp
      have hp2 : sep <+: x :: (w' ++ sep ++ v) :=
        List.isPrefixOf_iff_prefix.mp hp
      have h3 : (x :: w') <+: x :: (w' ++ sep ++ v) := ⟨sep ++ v, by simp⟩
      by_cases hlen : sep.length ≤ (x :: w').length
      · exact hw (List.prefix_of_prefix_length_le hp2 h3 hlen).isInfix
      · have h4 : (x :: w') <+: sep :=
          List.prefix_of_prefix_length_le h3 hp2 (by omega)
        exact hnl (h4.sublist.subset (mem_of_getLast?_eq hlast))
    simp only [List.cons_append]
    rw [splitOnceSub, if_neg hnp]
    cases w' with
    | nil =>
      simp only [List.nil_append]
      rw [splitOnceSub_prefix_self sep v hsep]
      rfl
    | cons y w'' =>
      have hw' : ¬ sep <:+: y :: w'' := fun hinf => hw (List.infix_cons hinf)
      have hlast' : (y :: w'').getLast? = some '\n' := by
        rwa [List.getLast?_cons_cons] at hlast
      rw [ih hw' hlast']
      rfl

/-! ## Basic store lemmas -/

theorem fsLookup_fsWrite_self (fs : FS) (k v : Str) :
    fsLookup (fsWrite fs k v) k = some v := by
  induction fs with
  | nil => simp [fsWrite, fsLookup]
  | cons hd tl ih =>
    by_cases h : hd.1 = k
    · simp [fsWrite, fsLookup, h]
    · simp [fsWrite, fsLookup, h, ih]

theorem fsWrite_fsWrite_self (fs : FS) (k a b : Str) :
    fsWrite (fsWrite fs k a) k b = fsWrite fs k b := by
  induction fs with
  | nil => simp [fsWrite]
  | cons hd tl ih =>
    by_cases h : hd.1 = k
    · simp [fsWrite, h]
    · simp [fsWrite, h, ih]

theorem fsLookup_fsWrite_ne (fs : FS) (k k2 v : Str) (h : k ≠ k2) :
    fsLookup (fsWrite fs k v) k2 = fsLookup fs k2 := by
  induction fs with
  | nil => simp [fsWrite, fsLookup, h]
  | cons hd tl ih =>
    by_cases hh : hd.1 = k
    · simp [fsWrite, fsLookup, hh, h]
    · simp [fsWrite, fsLookup, hh, ih]

/-! ## Canonical article files

A `Shape` describes an article file of the canonical layout the encoder
produces: a `---` line, header lines, the `read:`/`starred:` flag
lines, a closing `---` line, then body lines.  `ShapeWF` captures the
hygiene conditions under which the textual search-and-splice operations
of the cache behave as intended: no header or body line contains a
newline, a `---` occurrence, a trailing carriage return, a line
starting with a flag prefix, or the substrings the flag probes look
for. -/

def boolStr (b : Bool) : Str := if b then "true".data else "false".data

structure Shape where
  pre : List Str
  readFlag : Bool
  starFlag : Bool
  body : List Str
deriving DecidableEq

def readLineOf (sh : Shape) : Str := "read: ".data ++ boolStr sh.readFlag

def starLineOf (sh : Shape) : Str := "starred: ".data ++ boolStr sh.starFlag

def headLines (sh : Shape) : List Str :=
  "---".data :: (sh.pre ++ [readLineOf sh, starLineOf sh, "---".data])

def shapeLines (sh : Shape) : List Str := headLines sh ++ sh.body

/-- The file as the encoder writes it (with trailing newline). -/
def mkContent (sh : Shape) : Str := joinLines (shapeLines sh) ++ ['\n']

/-- The file as `update_article_state` rewrites it (the join drops the
trailing newline). -/
def mkContentNoNl (sh : Shape) : Str := joinLines (shapeLines sh)

def LineOk (l : Str) : Prop :=
  '\n' ∉ l ∧ l.getLast? ≠ some '\r' ∧ ¬ "---".data <:+: l ∧
  ¬ strStartsWith "read: ".data l = true ∧
  ¬ strStartsWith "starred: ".data l = true ∧
  ¬ "starred: true".data <:+: l ∧ ¬ "read: false".data <:+: l

instance (l : Str) : Decidable (LineOk l) := by
  unfold LineOk; infer_instance

def ShapeWF (sh : Shape) : Prop :=
  (∀ l ∈ sh.pre, LineOk l) ∧ (∀ l ∈ sh.body, LineOk l) ∧
  sh.body ≠ [] ∧ sh.body.getLast? ≠ some []

instance (sh : Shape) : Decidable (ShapeWF sh) := by
  unfold ShapeWF; infer_instance

/-- The frontmatter scan result of the header lines before the flag
lines. -/
def preAcc (sh : Shape) : ScanAcc := sh.pre.foldl scanLine accInit

/-- The record a canonical file decodes to, given the raw body text. -/
def shapeItem (sh : Shape) (b : Str) : FeedItem :=
  { id := (preAcc sh).id, feed_url := (preAcc sh).feed_url,
    title := (preAcc sh).title, link := (preAcc sh).link,
    description := some b, published := (preAcc sh).published,
    author := (preAcc sh).author, content := some b,
    read := sh.readFlag, starred := sh.starFlag }

theorem scanLine_nil (acc : ScanAcc) : scanLine acc [] = acc := rfl

theorem scanLine_readLine (acc : ScanAcc) (b : Bool) :
    scanLine acc ("read: ".data ++ boolStr b) = { acc with read := b } := by
  have h1 : splitOnceChar ':' ("read: ".data ++ boolStr b) =
      some ("read".data, ' ' :: boolStr b) := by cases b <;> rfl
  unfold scanLine
  rw [h1]
  have h3 : trimStr (' ' :: boolStr b) = boolStr b := by cases b <;> rfl
  simp only [h3]
  have h4 : (boolStr b = "true".data) = (b = true) := by
    cases b <;> simp [boolStr]
  simp +decide [h4]

theorem scanLine_starLine (acc : ScanAcc) (b : Bool) :
    scanLine acc ("starred: ".data ++ boolStr b) = { acc with starred := b } := by
  have h1 : splitOnceChar ':' ("starred: ".data ++ boolStr b) =
      some ("starred".data, ' ' :: boolStr b) := by cases b <;> rfl
  unfold scanLine
  rw [h1]
  have h3 : trimStr (' ' :: boolStr b) = boolStr b := by cases b <;> rfl
  simp only [h3]
  have h4 : (boolStr b = "true".data) = (b = true) := by
    cases b <;> simp [boolStr]
  simp +decide [h4]

theorem shapeLines_lines_ok {sh : Shape} (hwf : ShapeWF sh) :
    ∀ l ∈ shapeLines sh, '\n' ∉ l ∧ l.getLast? ≠ some '\r' := by
  intro l hl
  simp only [shapeLines, headLines, List.mem_append, List.mem_cons,
    List.mem_singleton] at hl
  rcases hl with (rfl | hl | rfl | rfl | rfl | hfalse) | hl
  · decide
  · exact ⟨(hwf.1 l hl).1, (hwf.1 l hl).2.1⟩
  · unfold readLineOf; cases sh.readFlag <;> decide
  · unfold starLineOf; cases sh.starFlag <;> decide
  · decide
  · simp at hfalse
  · exact ⟨(hwf.2.1 l hl).1, (hwf.2.1 l hl).2.1⟩

theorem shapeLines_getLast? {sh : Shape} (hwf : ShapeWF sh) :
    (shapeLines sh).getLast? ≠ some [] := by
  unfold shapeLines
  rw [List.getLast?_append]
  cases hb : sh.body.getLast? with
  | none =>
    exact absurd (List.getLast?_eq_none_iff.mp hb) hwf.2.2.1
  | some x =>
    have := hwf.2.2.2
    rw [hb] at this
    simpa using this

theorem rustLines_mkContent {sh : Shape} (hwf : ShapeWF sh) :
    rustLines (mkContent sh) = shapeLines sh :=
  rustLines_join_newline (by simp [shapeLines, headLines])
    (shapeLines_lines_ok hwf)

theorem rustLines_mkContentNoNl {sh : Shape} (hwf : ShapeWF sh) :
    rustLines (mkContentNoNl sh) = shapeLines sh :=
  rustLines_join (shapeLines_lines_ok hwf) (shapeLines_getLast? hwf)

/-- The header lines between the two `---` delimiters. -/
def midLines (sh : Shape) : List Str :=
  sh.pre ++ [readLineOf sh, starLineOf sh]

/-- The text between the first and second `---` occurrence. -/
def wOf (sh : Shape) : Str := '\n' :: (joinLines (midLines sh) ++ ['\n'])

/-- The body text after the second `---` (without the file's trailing
newline). -/
def vTail (sh : Shape) : Str := '\n' :: joinLines sh.body

theorem midLines_ne_nil (sh : Shape) : midLines sh ≠ [] := by
  simp [midLines]

theorem mkContentNoNl_decomp {sh : Shape} (hwf : ShapeWF sh) :
    mkContentNoNl sh = "---".data ++ (wOf sh ++ ("---".data ++ vTail sh)) := by
  have hb : sh.body ≠ [] := hwf.2.2.1
  have h0 : shapeLines sh =
      ["---".data] ++ (midLines sh ++ (["---".data] ++ sh.body)) := by
    simp [shapeLines, headLines, midLines]
  have h2 : joinLines (midLines sh ++ (["---".data] ++ sh.body)) =
      joinLines (midLines sh) ++ '\n' :: joinLines (["---".data] ++ sh.body) :=
    joinLines_append _ _ (midLines_ne_nil sh) (by simp)
  have h3 : joinLines (["---".data] ++ sh.body) =
      "---".data ++ '\n' :: joinLines sh.body := by
    rw [joinLines_append _ _ (by simp) hb]
    rfl
  have h1 : joinLines (["---".data] ++ (midLines sh ++ (["---".data] ++ sh.body))) =
      "---".data ++ '\n' :: joinLines (midLines sh ++ (["---".data] ++ sh.body)) := by
    rw [joinLines_append _ _ (by simp) (by simp [midLines])]
    rfl
  unfold mkContentNoNl
  rw [h0, h1, h2, h3]
  simp [wOf, vTail]

theorem mkContent_decomp {sh : Shape} (hwf : ShapeWF sh) :
    mkContent sh =
      "---".data ++ (wOf sh ++ ("---".data ++ (vTail sh ++ ['\n']))) := by
  have : mkContent sh = mkContentNoNl sh ++ ['\n'] := rfl
  rw [this, mkContentNoNl_decomp hwf]
  simp

theorem wOf_as_join (sh : Shape) :
    wOf sh = joinLines ([[]] ++ midLines sh ++ [[]]) := by
  rw [joinLines_append ([[]] ++ midLines sh) [[]]
    (by simp) (by simp)]
  rw [joinLines_append [[]] (midLines sh) (by simp) (midLines_ne_nil sh)]
  simp [joinLines, wOf]

theorem wOf_getLast? (sh : Shape) : (wOf sh).getLast? = some '\n' := by
  show (('\n' :: joinLines (midLines sh)) ++ ['\n']).getLast? = some '\n'
  exact List.getLast?_concat _

theorem mem_midLines {sh : Shape} {l : Str} (h : l ∈ midLines sh) :
    l ∈ sh.pre ∨ l = readLineOf sh ∨ l = starLineOf sh := by
  rcases List.mem_append.mp h with h1 | h1
  · exact Or.inl h1
  · right; simpa using h1

theorem not_infix_wOf {sh : Shape} (hwf : ShapeWF sh) :
    ¬ "---".data <:+: wOf sh := by
  rw [wOf_as_join]
  rw [infix_joinLines _ (by decide) (by decide)]
  rintro ⟨l, hl, hinf⟩
  rcases List.mem_append.mp hl with h1 | h1
  · rcases List.mem_append.mp h1 with h2 | h2
    · simp at h2; subst h2; exact absurd hinf (by decide)
    · rcases mem_midLines h2 with h3 | h3 | h3
      · exact (hwf.1 l h3).2.2.1 hinf
      · subst h3
        exact absurd hinf (by unfold readLineOf; cases sh.readFlag <;> decide)
      · subst h3
        exact absurd hinf (by unfold starLineOf; cases sh.starFlag <;> decide)
  · simp at h1; subst h1; exact absurd hinf (by decide)

theorem splitn3_eq_of (sep s a r b c : Str)
    (h1 : splitOnceSub sep s = some (a, r))
    (h2 : splitOnceSub sep r = some (b, c)) : splitn3 sep s = [a, b, c] := by
  unfold splitn3
  rw [h1]
  show (match splitOnceSub sep r with
    | none => [a, r]
    | some (b, c) => [a, b, c]) = [a, b, c]
  rw [h2]

theorem splitn3_mkContentNoNl {sh : Shape} (hwf : ShapeWF sh) :
    splitn3 "---".data (mkContentNoNl sh) = [[], wOf sh, vTail sh] := by
  have e1 : splitOnceSub "---".data (mkContentNoNl sh) =
      some ([], wOf sh ++ ("---".data ++ vTail sh)) := by
    rw [mkContentNoNl_decomp hwf]
    exact splitOnceSub_prefix_self _ _ (by decide)
  have e2 : splitOnceSub "---".data (wOf sh ++ ("---".data ++ vTail sh)) =
      some (wOf sh, vTail sh) := by
    have hre : wOf sh ++ ("---".data ++ vTail sh) =
        wOf sh ++ "---".data ++ vTail sh := by simp
    rw [hre]
    exact splitOnceSub_append_first _ _ (by decide) (by decide)
      (not_infix_wOf hwf) (wOf_getLast? sh)
  exact splitn3_eq_of _ _ _ _ _ _ e1 e2

theorem splitn3_mkContent {sh : Shape} (hwf : ShapeWF sh) :
    splitn3 "---".data (mkContent sh) = [[], wOf sh, vTail sh ++ ['\n']] := by
  have e1 : splitOnceSub "---".data (mkContent sh) =
      some ([], wOf sh ++ ("---".data ++ (vTail sh ++ ['\n']))) := by
    rw [mkContent_decomp hwf]
    exact splitOnceSub_prefix_self _ _ (by decide)
  have e2 : splitOnceSub "---".data
      (wOf sh ++ ("---".data ++ (vTail sh ++ ['\n']))) =
      some (wOf sh, vTail sh ++ ['\n']) := by
    have hre : wOf sh ++ ("---".data ++ (vTail sh ++ ['\n'])) =
        wOf sh ++ "---".data ++ (vTail sh ++ ['\n']) := by simp
    rw [hre]
    exact splitOnceSub_append_first _ _ (by decide) (by decide)
      (not_infix_wOf hwf) (wOf_getLast? sh)
  exact splitn3_eq_of _ _ _ _ _ _ e1 e2

theorem rustLines_wOf {sh : Shape} (hwf : ShapeWF sh) :
    rustLines (wOf sh) = [] :: midLines sh := by
  have h : wOf sh = joinLines ([[]] ++ midLines sh) ++ ['\n'] := by
    rw [joinLines_append [[]] (midLines sh) (by simp) (midLines_ne_nil sh)]
    simp [joinLines, wOf]
  have hlines : ∀ l ∈ [[]] ++ midLines sh, '\n' ∉ l ∧ l.getLast? ≠ some '\r' := by
    intro l hl
    rcases List.mem_append.mp hl with h1 | h1
    · simp at h1; subst h1; decide
    · rcases mem_midLines h1 with h3 | h3 | h3
      · exact ⟨(hwf.1 l h3).1, (hwf.1 l h3).2.1⟩
      · subst h3; unfold readLineOf; cases sh.readFlag <;> decide
      · subst h3; unfold starLineOf; cases sh.starFlag <;> decide
  rw [h, rustLines_join_newline (by simp) hlines]
  rfl

theorem scanFront_front (sh : Shape) :
    scanFront ([] :: midLines sh) =
      { preAcc sh with read := sh.readFlag, starred := sh.starFlag } := by
  unfold scanFront midLines
  rw [show ([] :: (sh.pre ++ [readLineOf sh, starLineOf sh])) =
      ([] :: sh.pre) ++ [readLineOf sh, starLineOf sh] by simp]
  rw [List.foldl_append]
  have h0 : List.foldl scanLine accInit ([] :: sh.pre) = preAcc sh := by
    simp only [List.foldl_cons, scanLine_nil]
    rfl
  rw [h0]
  simp only [List.foldl_cons, List.foldl_nil]
  rw [show readLineOf sh = "read: ".data ++ boolStr sh.readFlag from rfl,
      show starLineOf sh = "starred: ".data ++ boolStr sh.starFlag from rfl]
  rw [scanLine_readLine, scanLine_starLine]

theorem parse_mkContentNoNl {sh : Shape} (hwf : ShapeWF sh) :
    parseArticleFile (mkContentNoNl sh) = .ok (shapeItem sh (vTail sh)) := by
  unfold parseArticleFile
  rw [splitn3_mkContentNoNl hwf]
  show Except.ok (mkItemFrom (wOf sh) (vTail sh)) = _
  unfold mkItemFrom
  rw [rustLines_wOf hwf, scanFront_front]
  rfl

theorem parse_mkContent {sh : Shape} (hwf : ShapeWF sh) :
    parseArticleFile (mkContent sh) = .ok (shapeItem sh (vTail sh ++ ['\n'])) := by
  unfold parseArticleFile
  rw [splitn3_mkContent hwf]
  show Except.ok (mkItemFrom (wOf sh) (vTail sh ++ ['\n'])) = _
  unfold mkItemFrom
  rw [rustLines_wOf hwf, scanFront_front]
  rfl

/-! ## The line splice and the substring probes on canonical files -/

theorem strStartsWith_append_self (p x : Str) :
    strStartsWith p (p ++ x) = true := by
  unfold strStartsWith
  exact List.isPrefixOf_iff_prefix.mpr (List.prefix_append _ _)

theorem map_replLine_id {p v : Str} {L : List Str}
    (h : ∀ l ∈ L, ¬ strStartsWith p l = true) :
    L.map (replLine p v) = L := by
  calc L.map (replLine p v) = L.map id :=
    List.map_congr_left (fun x hx => by rw [replLine, if_neg (h x hx)]; rfl)
  _ = L := List.map_id L

theorem updateContent_read {sh : Shape} (hwf : ShapeWF sh) {c : Str}
    (hc : rustLines c = shapeLines sh) (b : Bool) :
    updateContent c "read".data (boolStr b) =
      mkContentNoNl { sh with readFlag := b } := by
  obtain ⟨pre, rf, sf, body⟩ := sh
  unfold updateContent mkContentNoNl
  rw [hc]
  have hkey : "read".data ++ ": ".data = "read: ".data := by decide
  rw [hkey]
  congr 1
  simp only [shapeLines, headLines, readLineOf, starLineOf, List.map_append,
    List.map_cons, List.map_nil]
  have e0 : replLine "read: ".data (boolStr b) "---".data = "---".data := by
    unfold replLine
    rw [if_neg (by decide)]
  have e1 : replLine "read: ".data (boolStr b) ("read: ".data ++ boolStr rf) =
      "read: ".data ++ boolStr b := by
    unfold replLine
    rw [if_pos (strStartsWith_append_self _ _)]
  have e2 : ∀ b2 : Bool,
      replLine "read: ".data (boolStr b) ("starred: ".data ++ boolStr b2) =
        "starred: ".data ++ boolStr b2 := by
    intro b2
    unfold replLine
    cases b2 <;> rw [if_neg (by decide)]
  rw [map_replLine_id (fun l hl => (hwf.1 l hl).2.2.2.1),
      map_replLine_id (fun l hl => (hwf.2.1 l hl).2.2.2.1), e0, e1, e2 sf]

theorem updateContent_star {sh : Shape} (hwf : ShapeWF sh) {c : Str}
    (hc : rustLines c = shapeLines sh) (b : Bool) :
    updateContent c "starred".data (boolStr b) =
      mkContentNoNl { sh with starFlag := b } := by
  obtain ⟨pre, rf, sf, body⟩ := sh
  unfold updateContent mkContentNoNl
  rw [hc]
  have hkey : "starred".data ++ ": ".data = "starred: ".data := by decide
  rw [hkey]
  congr 1
  simp only [shapeLines, headLines, readLineOf, starLineOf, List.map_append,
    List.map_cons, List.map_nil]
  have e0 : replLine "starred: ".data (boolStr b) "---".data = "---".data := by
    unfold replLine
    rw [if_neg (by decide)]
  have e1 : ∀ b2 : Bool,
      replLine "starred: ".data (boolStr b) ("read: ".data ++ boolStr b2) =
        "read: ".data ++ boolStr b2 := by
    intro b2
    unfold replLine
    cases b2 <;> rw [if_neg (by decide)]
  have e2 : replLine "starred: ".data (boolStr b) ("starred: ".data ++ boolStr sf) =
      "starred: ".data ++ boolStr b := by
    unfold replLine
    rw [if_pos (strStartsWith_append_self _ _)]
  rw [map_replLine_id (fun l hl => (hwf.1 l hl).2.2.2.2.1),
      map_replLine_id (fun l hl => (hwf.2.1 l hl).2.2.2.2.1), e0, e1 rf, e2]

theorem bool_eq_of_iff {a b : Bool} (h : (a = true) ↔ (b = true)) : a = b := by
  cases a <;> cases b <;> simp_all

theorem mkContent_as_join (sh : Shape) :
    mkContent sh = joinLines (shapeLines sh ++ [[]]) :=
  joinLines_concat_newline _ (by simp [shapeLines, headLines])

theorem mem_shapeLines {sh : Shape} {l : Str} (h : l ∈ shapeLines sh) :
    l = "---".data ∨ l ∈ sh.pre ∨ l = readLineOf sh ∨ l = starLineOf sh ∨
      l ∈ sh.body := by
  rcases List.mem_append.mp h with h1 | h1
  · rcases List.mem_cons.mp h1 with rfl | h2
    · exact Or.inl rfl
    · rcases List.mem_append.mp h2 with h3 | h3
      · exact Or.inr (Or.inl h3)
      · simp only [List.mem_cons, List.not_mem_nil, or_false] at h3
        rcases h3 with rfl | rfl | rfl
        · exact Or.inr (Or.inr (Or.inl rfl))
        · exact Or.inr (Or.inr (Or.inr (Or.inl rfl)))
        · exact Or.inl rfl
  · exact Or.inr (Or.inr (Or.inr (Or.inr h1)))

theorem star_infix_shapeLines {sh : Shape} (hwf : ShapeWF sh) :
    (∃ l ∈ shapeLines sh, "starred: true".data <:+: l) ↔
      sh.starFlag = true := by
  constructor
  · rintro ⟨l, hl, hinf⟩
    rcases mem_shapeLines hl with rfl | h1 | rfl | rfl | h1
    · exact absurd hinf (by decide)
    · exact absurd hinf ((hwf.1 l h1).2.2.2.2.2.1)
    · exact absurd hinf (by unfold readLineOf; cases sh.readFlag <;> decide)
    · cases hstar : sh.starFlag
      · rw [starLineOf, hstar] at hinf
        exact absurd hinf (by decide)
      · rfl
    · exact absurd hinf ((hwf.2.1 l h1).2.2.2.2.2.1)
  · intro hs
    refine ⟨starLineOf sh, by simp [shapeLines, headLines], ?_⟩
    rw [starLineOf, hs]
    decide

theorem readFalse_infix_shapeLines {sh : Shape} (hwf : ShapeWF sh) :
    (∃ l ∈ shapeLines sh, "read: false".data <:+: l) ↔
      sh.readFlag = false := by
  constructor
  · rintro ⟨l, hl, hinf⟩
    rcases mem_shapeLines hl with rfl | h1 | rfl | rfl | h1
    · exact absurd hinf (by decide)
    · exact absurd hinf ((hwf.1 l h1).2.2.2.2.2.2)
    · cases hread : sh.readFlag
      · rfl
      · rw [readLineOf, hread] at hinf
        exact absurd hinf (by decide)
    · exact absurd hinf (by unfold starLineOf; cases sh.starFlag <;> decide)
    · exact absurd hinf ((hwf.2.1 l h1).2.2.2.2.2.2)
  · intro hs
    refine ⟨readLineOf sh, by simp [shapeLines, headLines], ?_⟩
    rw [readLineOf, hs]
    decide

theorem infix_content_iff_infix_line {sh : Shape} {c t : Str}
    (hc : c = mkContent sh ∨ c = mkContentNoNl sh) (htn : '\n' ∉ t)
    (hte : t ≠ []) :
    (t <:+: c) ↔ ∃ l ∈ shapeLines sh, t <:+: l := by
  rcases hc with rfl | rfl
  · rw [mkContent_as_join, infix_joinLines _ htn hte]
    constructor
    · rintro ⟨l, hl, hinf⟩
      rcases List.mem_append.mp hl with h1 | h1
      · exact ⟨l, h1, hinf⟩
      · simp at h1; subst h1
        rw [List.infix_nil] at hinf
        exact absurd hinf hte
    · rintro ⟨l, hl, hinf⟩
      exact ⟨l, List.mem_append.mpr (Or.inl hl), hinf⟩
  · rw [mkContentNoNl, infix_joinLines _ htn hte]

theorem contains_star_eq {sh : Shape} (hwf : ShapeWF sh) {c : Str}
    (hc : c = mkContent sh ∨ c = mkContentNoNl sh) :
    strContains c "starred: true".data = sh.starFlag := by
  apply bool_eq_of_iff
  exact strContains_iff.trans
    ((infix_content_iff_infix_line hc (by decide) (by decide)).trans
      (star_infix_shapeLines hwf))

theorem contains_readFalse_eq {sh : Shape} (hwf : ShapeWF sh) {c : Str}
    (hc : c = mkContent sh ∨ c = mkContentNoNl sh) :
    strContains c "read: false".data = !sh.readFlag := by
  apply bool_eq_of_iff
  refine strContains_iff.trans
    ((infix_content_iff_infix_line hc (by decide) (by decide)).trans ?_)
  rw [readFalse_infix_shapeLines hwf]
  cases sh.readFlag <;> simp

/-! ## Point mutations on canonical files -/

theorem updateArticleState_some {fs : FS} {id : Str} (field value : Str)
    {c : Str} (h : fsLookup fs (idFilename id) = some c) :
    updateArticleState fs id field value =
      (fsWrite fs (idFilename id) (updateContent c field value), .ok ()) := by
  unfold updateArticleState updateArticleStateOps
  rw [h]
  show (applyOps fs [FsOp.write (idFilename id) (updateContent c field value)],
      (Except.ok () : Except StoreErr Unit)) = _
  simp [applyOps, applyOp]

theorem markAsRead_step {fs : FS} {id : Str} {sh : Shape} {c : Str}
    (hwf : ShapeWF sh) (hc : c = mkContent sh ∨ c = mkContentNoNl sh)
    (hlk : fsLookup fs (idFilename id) = some c) :
    markAsRead fs id =
      (fsWrite fs (idFilename id) (mkContentNoNl { sh with readFlag := true }),
        .ok ()) := by
  have hlines : rustLines c = shapeLines sh := by
    rcases hc with rfl | rfl
    · exact rustLines_mkContent hwf
    · exact rustLines_mkContentNoNl hwf
  unfold markAsRead
  rw [updateArticleState_some "read".data "true".data hlk]
  have hval : ("true".data : Str) = boolStr true := rfl
  rw [hval, updateContent_read hwf hlines true]

theorem toggleStar_step {fs : FS} {id : Str} {sh : Shape} {c : Str}
    (hwf : ShapeWF sh) (hc : c = mkContent sh ∨ c = mkContentNoNl sh)
    (hlk : fsLookup fs (idFilename id) = some c) :
    toggleStar fs id =
      (fsWrite fs (idFilename id)
        (mkContentNoNl { sh with starFlag := !sh.starFlag }), .ok ()) := by
  have hlines : rustLines c = shapeLines sh := by
    rcases hc with rfl | rfl
    · exact rustLines_mkContent hwf
    · exact rustLines_mkContentNoNl hwf
  unfold toggleStar
  rw [hlk]
  show updateArticleState fs id "starred".data
      (if strContains c "starred: true".data = true then "false".data
       else "true".data) = _
  rw [contains_star_eq hwf hc]
  have hval : (if sh.starFlag = true then "false".data else "true".data) =
      boolStr (!sh.starFlag) := by
    cases sh.starFlag <;> rfl
  rw [hval, updateArticleState_some "starred".data (boolStr (!sh.starFlag)) hlk,
      updateContent_star hwf hlines (!sh.starFlag)]

def c1Item : FeedItem :=
  { id := "abc".data, feed_url := "feedurl".data, title := "T".data,
    link := "L".data, description := some "D".data, published := some 5,
    author := none, content := some "C".data, read := false, starred := false }

/-- C1: the claim fails on the code, and the code contradicts its own
test `test_o1_article_lookup` (which stores a feed and expects
`get_article_by_id` of the item id to be `Some`): `store_article`
writes the record under `{published:%Y%m%d-%H%M%S}-{sanitized id}.md`
(here `5-abc.md`) while `get_article_by_id` looks up `{id}.md`
(`abc.md`), so a record stored with id `abc` is present on disk and
yet `get_article_by_id("abc")` returns `Ok(None)`. -/
theorem c1_store_then_get_is_none :
    storeArticle [] c1Item 0 =
      [("5-abc.md".data, encodeArticle c1Item 0)] ∧
    getArticleById (storeArticle [] c1Item 0) c1Item.id = .ok none := by
  decide

/-! ## C2: idempotent ingestion -/

def c2Item : FeedItem :=
  { id := "abc".data, feed_url := "feedurl".data, title := "T".data,
    link := "L".data, description := some "D".data, published := none,
    author := none, content := some "C".data, read := false, starred := false }

/-- C2 counterexample: for a record with no `published` timestamp the
storage filename embeds the ingestion clock, so inserting the same
record at two different seconds creates two files — the store is not
in the same state as after one insert. -/
theorem c2_counterexample :
    storeArticle (storeArticle [] c2Item 0) c2Item 1 ≠
      storeArticle [] c2Item 0 := by
  decide

/-- C2 as amended: for a record that carries a `published` timestamp
the storage filename is determined by the record alone, so a second
insert of the same record finds the file present and is a complete
no-op: the store (including any `read`/`starred` state in it) is
exactly the state after the first insert. -/
theorem c2_insert_idempotent (fs : FS) (item : FeedItem)
    (now1 now2 d : Nat) (h : item.published = some d) :
    storeArticle (storeArticle fs item now1) item now2 =
      storeArticle fs item now1 := by
  have hf : ∀ now : Nat, articleFilename item now = articleFilename item d := by
    intro now; unfold articleFilename; rw [h]; simp
  have he : ∀ now : Nat, encodeArticle item now = encodeArticle item d := by
    intro now; unfold encodeArticle; rw [h]; simp
  unfold storeArticle storeArticleOps
  rw [hf now1, hf now2, he now1]
  cases hcase : fsLookup fs (articleFilename item d) with
  | some c => simp [applyOps, hcase]
  | none =>
    simp [applyOps, hcase, applyOp, fsLookup_fsWrite_self]

theorem c2_insert_idempotent_witness :
    storeArticle (storeArticle [] c1Item 3 ) c1Item 7 =
      storeArticle [] c1Item 3 :=
  c2_insert_idempotent [] c1Item 3 7 5 rfl

/-! ## C3: state-mutation isolation -/

def c3Content : Str :=
  "---\nid: a\nread: false\nstarred: false\n---\nbody\n".data

def c3After : Str :=
  "---\nid: a\nread: true\nstarred: false\n---\nbody".data

def c3Fs : FS := [("a.md".data, c3Content)]

/-- C3 counterexample: `update_article_state` rebuilds the file by
joining its lines with `"\n"`, which drops the file's trailing
newline: after `mark_as_read` the decoded body is `"\nbody"` where it
was `"\nbody\n"` — the body is not preserved verbatim, only the `read`
header field should have changed. -/
theorem c3_counterexample :
    markAsRead c3Fs "a".data = ([("a.md".data, c3After)], .ok ()) ∧
    (parseArticleFile c3Content).map (fun it => it.content) =
      .ok (some "\nbody\n".data) ∧
    (parseArticleFile c3After).map (fun it => it.content) =
      .ok (some "\nbody".data) := by
  decide

/-- C3 as amended: on a canonical article file whose header and body
lines carry no flag-line prefixes and none of the probed substrings,
`mark_as_read` rewrites exactly the `read:` header line and
`toggle_star` exactly the `starred:` header line; every other header
field (id, feed, title, link, author, date) and every body line are
preserved, and the decoded record changes only in the targeted flag —
except that the rewrite rejoins the lines with `"\n"` and thereby drops
the file's final newline from the body. -/
theorem c3_state_mutation_isolated (fs : FS) (id : Str) (sh : Shape)
    (hwf : ShapeWF sh)
    (hlk : fsLookup fs (idFilename id) = some (mkContent sh)) :
    markAsRead fs id =
      (fsWrite fs (idFilename id) (mkContentNoNl { sh with readFlag := true }),
        .ok ()) ∧
    toggleStar fs id =
      (fsWrite fs (idFilename id)
        (mkContentNoNl { sh with starFlag := !sh.starFlag }), .ok ()) ∧
    parseArticleFile (mkContent sh) = .ok (shapeItem sh (vTail sh ++ ['\n'])) ∧
    parseArticleFile (mkContentNoNl { sh with readFlag := true }) =
      .ok { shapeItem sh (vTail sh) with read := true } ∧
    parseArticleFile (mkContentNoNl { sh with starFlag := !sh.starFlag }) =
      .ok { shapeItem sh (vTail sh) with starred := !sh.starFlag } := by
  refine ⟨markAsRead_step hwf (Or.inl rfl) hlk,
    toggleStar_step hwf (Or.inl rfl) hlk, parse_mkContent hwf, ?_, ?_⟩
  · rw [@parse_mkContentNoNl { sh with readFlag := true } hwf]
    rfl
  · rw [@parse_mkContentNoNl { sh with starFlag := !sh.starFlag } hwf]
    rfl

def wShape : Shape :=
  { pre := ["id: a".data, "feed: f".data, "title: T".data, "link: L".data,
            "author: ".data, "date: 5".data],
    readFlag := false, starFlag := false, body := ["hello".data] }

def wFs : FS := [("a.md".data, mkContent wShape)]

theorem c3_state_mutation_isolated_witness :
    markAsRead wFs "a".data =
      (fsWrite wFs (idFilename "a".data)
        (mkContentNoNl { wShape with readFlag := true }), .ok ()) ∧
    toggleStar wFs "a".data =
      (fsWrite wFs (idFilename "a".data)
        (mkContentNoNl { wShape with starFlag := !wShape.starFlag }), .ok ()) ∧
    parseArticleFile (mkContent wShape) =
      .ok (shapeItem wShape (vTail wShape ++ ['\n'])) ∧
    parseArticleFile (mkContentNoNl { wShape with readFlag := true }) =
      .ok { shapeItem wShape (vTail wShape) with read := true } ∧
    parseArticleFile (mkContentNoNl { wShape with starFlag := !wShape.starFlag }) =
      .ok { shapeItem wShape (vTail wShape) with starred := !wShape.starFlag } :=
  c3_state_mutation_isolated wFs "a".data wShape (by decide) (by decide)

/-! ## C4: crash-safety of writes -/

def c4Content : Str :=
  "---\nid: a\nread: false\nstarred: false\n---\nbody\n".data

/-- C4 counterexample: updating an article performs exactly one
`fs::write` directly to the final `.md` path — no temporary file and
no rename is ever emitted, so the write is not atomic-replace; and a
prefix of the file (as left by an interrupted write) fails to decode
where the intact file decodes fine. -/
theorem c4_counterexample :
    updateArticleStateOps [("a.md".data, c4Content)] "a".data
        "read".data "true".data =
      .ok [.write "a.md".data
            (updateContent c4Content "read".data "true".data)] ∧
    opsAvoidDirectFinalWrites
      [.write "a.md".data
        (updateContent c4Content "read".data "true".data)] = false ∧
    parseArticleFile (c4Content.take 8) = .error .malformed ∧
    parseArticleFile c4Content ≠ .error .malformed := by
  decide

/-- C4 as amended: every filesystem operation the store emits is a
single whole-file write of the complete new content directly to the
final article path (never a partial patch, never a rename of a
temporary file): `update_article_state` emits exactly one write to
`{id}.md`, and `store_article` emits nothing or exactly one write of
the full encoding to its computed filename. -/
theorem c4_whole_file_direct_writes (fs : FS) (id field value : Str)
    (item : FeedItem) (now : Nat) (ops : List FsOp)
    (h : updateArticleStateOps fs id field value = .ok ops) :
    (∃ c, ops = [.write (idFilename id) c]) ∧
    (storeArticleOps fs item now = [] ∨
      storeArticleOps fs item now =
        [.write (articleFilename item now) (encodeArticle item now)]) ∧
    (∀ op ∈ ops, ∀ s d, op ≠ .rename s d) := by
  refine ⟨?_, ?_, ?_⟩
  · unfold updateArticleStateOps at h
    cases hc : fsLookup fs (idFilename id) with
    | none => rw [hc] at h; exact absurd h (by simp)
    | some content =>
      rw [hc] at h
      exact ⟨updateContent content field value, by simpa using h.symm⟩
  · unfold storeArticleOps
    by_cases hs : (fsLookup fs (articleFilename item now)).isSome
    · left; simp [hs]
    · right; simp [hs]
  · intro op hop s d
    unfold updateArticleStateOps at h
    cases hc : fsLookup fs (idFilename id) with
    | none => rw [hc] at h; exact absurd h (by simp)
    | some content =>
      rw [hc] at h
      have : ops = [.write (idFilename id) (updateContent content field value)] := by
        simpa using h.symm
      subst this
      simp at hop
      subst hop
      simp

theorem c4_whole_file_direct_writes_witness :
    (∃ c, [FsOp.write (idFilename "a".data)
            (updateContent c4Content "read".data "true".data)] =
          [FsOp.write (idFilename "a".data) c]) ∧
    (storeArticleOps [("a.md".data, c4Content)] c1Item 0 = [] ∨
      storeArticleOps [("a.md".data, c4Content)] c1Item 0 =
        [.write (articleFilename c1Item 0) (encodeArticle c1Item 0)]) ∧
    (∀ op ∈ [FsOp.write (idFilename "a".data)
               (updateContent c4Content "read".data "true".data)],
       ∀ s d, op ≠ .rename s d) :=
  c4_whole_file_direct_writes [("a.md".data, c4Content)] "a".data
    "read".data "true".data c1Item 0 _ (by decide)

/-! ## C5: toggle symmetry -/

def c5Content : Str :=
  "---\nid: a\nstarred: true\n---\nxstarred: true\n".data

def c5Mid : Str :=
  "---\nid: a\nstarred: false\n---\nxstarred: true".data

def c5Fs : FS := [("a.md".data, c5Content)]

/-- C5 counterexample: `toggle_star` detects the current state as
`content.contains("starred: true")`, which also matches the substring
inside the body line `xstarred: true`.  Starting from a record whose
header says `starred: true`, the first toggle writes `false`, but the
second toggle still finds `"starred: true"` in the body and writes
`false` again: two toggles leave `starred = false`, not the original
`true`. -/
theorem c5_counterexample :
    (parseArticleFile c5Content).map (fun it => it.starred) = .ok true ∧
    toggleStar c5Fs "a".data = ([("a.md".data, c5Mid)], .ok ()) ∧
    toggleStar [("a.md".data, c5Mid)] "a".data =
      ([("a.md".data, c5Mid)], .ok ()) ∧
    (parseArticleFile c5Mid).map (fun it => it.starred) = .ok false := by
  decide

/-- C5 as amended: on a canonical article file in which the substring
`"starred: true"` can occur only as the starred header line itself (no
header or body line contains it or starts with `starred: `), two
successive `toggle_star` calls return the record to its original
`starred` value: the first flips the flag, the second flips it back,
and the final file decodes with `starred` equal to the original flag
(the only residual change being the dropped trailing newline). -/
theorem c5_toggle_twice_restores (fs : FS) (id : Str) (sh : Shape)
    (hwf : ShapeWF sh)
    (hlk : fsLookup fs (idFilename id) = some (mkContent sh)) :
    toggleStar fs id =
      (fsWrite fs (idFilename id)
        (mkContentNoNl { sh with starFlag := !sh.starFlag }), .ok ()) ∧
    toggleStar (fsWrite fs (idFilename id)
        (mkContentNoNl { sh with starFlag := !sh.starFlag })) id =
      (fsWrite fs (idFilename id) (mkContentNoNl sh), .ok ()) ∧
    parseArticleFile (mkContentNoNl sh) = .ok (shapeItem sh (vTail sh)) := by
  refine ⟨toggleStar_step hwf (Or.inl rfl) hlk, ?_, parse_mkContentNoNl hwf⟩
  have hstep2 := @toggleStar_step
    (fsWrite fs (idFilename id) (mkContentNoNl { sh with starFlag := !sh.starFlag }))
    id { sh with starFlag := !sh.starFlag }
    (mkContentNoNl { sh with starFlag := !sh.starFlag })
    hwf (Or.inr rfl) (fsLookup_fsWrite_self fs _ _)
  have hsh : ({ sh with starFlag := !(!sh.starFlag) } : Shape) = sh := by
    obtain ⟨pre, rf, sf, body⟩ := sh
    simp
  rw [hsh, fsWrite_fsWrite_self] at hstep2
  exact hstep2

theorem c5_toggle_twice_restores_witness :
    toggleStar wFs "a".data =
      (fsWrite wFs (idFilename "a".data)
        (mkContentNoNl { wShape with starFlag := !wShape.starFlag }), .ok ()) ∧
    toggleStar (fsWrite wFs (idFilename "a".data)
        (mkContentNoNl { wShape with starFlag := !wShape.starFlag })) "a".data =
      (fsWrite wFs (idFilename "a".data) (mkContentNoNl wShape), .ok ()) ∧
    parseArticleFile (mkContentNoNl wShape) =
      .ok (shapeItem wShape (vTail wShape)) :=
  c5_toggle_twice_restores wFs "a".data wShape (by decide) (by decide)

/-! ## C7: unread count -/

def c7Content : Str :=
  "---\nid: a\nread: true\nstarred: false\n---\nunread: false\n".data

/-- C7 counterexample: `get_unread_count` counts files whose raw text
contains the substring `"read: false"` anywhere; the body line
`unread: false` contains it, so a store holding one record whose
`read` field decodes to `true` reports one unread article instead of
zero. -/
theorem c7_counterexample :
    getUnreadCount [("a.md".data, c7Content)] = 1 ∧
    (parseArticleFile c7Content).map (fun it => it.read) = .ok true := by
  decide

/-- C7 as amended: `get_unread_count` counts the `.md` files whose raw
text contains the substring `"read: false"` anywhere; over a store of
canonical article files in which that substring can occur only as the
`read:` header line itself, this equals the number of stored records
whose decoded `read` field is false — in particular a store of three
such records with one marked read yields 2. -/
theorem c7_unread_count_canonical (l : List (Str × Shape))
    (h : ∀ p ∈ l, hasMdExt p.1 = true ∧ ShapeWF p.2) :
    getUnreadCount (l.map (fun p => (p.1, mkContent p.2))) =
      (l.filter (fun p => !p.2.readFlag)).length ∧
    ∀ p ∈ l, (parseArticleFile (mkContent p.2)).map (fun it => it.read) =
      .ok p.2.readFlag := by
  constructor
  · induction l with
    | nil => simp [getUnreadCount]
    | cons p rest ih =>
      have hp := h p (by simp)
      have hrest := fun q (hq : q ∈ rest) => h q (by simp [hq])
      have hcontains : strContains (mkContent p.2) "read: false".data =
          !p.2.readFlag := contains_readFalse_eq hp.2 (Or.inl rfl)
      simp only [List.map_cons, getUnreadCount, List.countP_cons,
        List.filter_cons] at ih ⊢
      rw [hcontains, hp.1]
      rw [ih hrest]
      cases p.2.readFlag <;> simp
  · intro p hp
    rw [parse_mkContent (h p hp).2]
    rfl

def c7wShapes : List (Str × Shape) :=
  [("a.md".data, { pre := ["id: a".data], readFlag := true,
                   starFlag := false, body := ["x".data] }),
   ("b.md".data, { pre := ["id: b".data], readFlag := false,
                   starFlag := false, body := ["y".data] }),
   ("c.md".data, { pre := ["id: c".data], readFlag := false,
                   starFlag := false, body := ["z".data] })]

theorem c7_unread_count_canonical_witness :
    getUnreadCount (c7wShapes.map (fun p => (p.1, mkContent p.2))) =
      (c7wShapes.filter (fun p => !p.2.readFlag)).length ∧
    ∀ p ∈ c7wShapes,
      (parseArticleFile (mkContent p.2)).map (fun it => it.read) =
        .ok p.2.readFlag :=
  c7_unread_count_canonical c7wShapes (by decide)

/-! ## C8: mutating a nonexistent id -/

/-- C8: when no file `{id}.md` exists, `mark_as_read`,
`mark_as_unread` and `toggle_star` all fail with the not-found error,
the store is returned unchanged, and no filesystem operation is
emitted at all. -/
theorem c8_notfound_touches_nothing (fs : FS) (id : Str)
    (h : fsLookup fs (idFilename id) = none) :
    markAsRead fs id = (fs, .error .notFound) ∧
    markAsUnread fs id = (fs, .error .notFound) ∧
    toggleStar fs id = (fs, .error .notFound) ∧
    updateArticleStateOps fs id "read".data "true".data =
      .error .notFound ∧
    updateArticleStateOps fs id "read".data "false".data =
      .error .notFound := by
  refine ⟨?_, ?_, ?_, ?_, ?_⟩ <;>
    simp [markAsRead, markAsUnread, toggleStar, updateArticleState,
      updateArticleStateOps, h]

theorem c8_notfound_touches_nothing_witness :
    markAsRead [] "zzz".data = ([], .error .notFound) ∧
    markAsUnread [] "zzz".data = ([], .error .notFound) ∧
    toggleStar [] "zzz".data = ([], .error .notFound) ∧
    updateArticleStateOps [] "zzz".data "read".data "true".data =
      .error .notFound ∧
    updateArticleStateOps [] "zzz".data "read".data "false".data =
      .error .notFound :=
  c8_notfound_touches_nothing [] "zzz".data (by decide)

/-! ## C10: limit applied before decoding -/

def c10Good1 : Str :=
  "---\nid: a\ntitle: One\ndate: 9\nread: false\nstarred: false\n---\nbody\n".data

def c10Good2 : Str :=
  "---\nid: b\ntitle: Two\ndate: 3\nread: false\nstarred: false\n---\nbody\n".data

def c10Entries : List Entry :=
  [⟨"a.md".data, 1, c10Good1⟩, ⟨"b.md".data, 2, c10Good2⟩,
   ⟨"c.md".data, 3, "junk".data⟩]

/-- C10: `get_articles` truncates to the limit over the
most-recently-modified `.md` files before decoding and silently drops
decode failures, so the result never exceeds the limit, and a store
with 2 decodable records (plus a more recent malformed file) returns
only 1 record for limit 2. -/
theorem c10_limit_before_decode :
    (∀ (entries : List Entry) (n : Nat),
      (getArticles entries (some n)).length ≤ n) ∧
    (c10Entries.filter (fun e => hasMdExt e.name)).countP
        (fun e => (parseArticleFile e.content).toOption.isSome) = 2 ∧
    getArticles c10Entries (some 2) =
      [⟨"b".data, [], "Two".data, [], some "\nbody\n".data, some 3, none,
        some "\nbody\n".data, false, false⟩] ∧
    (getArticles c10Entries (some 2)).length = 1 := by
  refine ⟨?_, by decide, by decide, by decide⟩
  intro entries n
  unfold getArticles
  simp only [Option.getD_some]
  exact le_trans (List.length_filterMap_le _ _) (List.length_take_le _ _)

/-! ## C6: search correctness -/

/-- C6: `search_articles` returns exactly those stored records whose
raw encoded text contains the query case-insensitively — a record is in
the result iff some `.md` file of the store matches case-insensitively
and decodes to it — and the result is ordered by `published` descending
(absent dates ordering below all present ones, per `Option::cmp`). -/
theorem c6_search_exact_and_sorted (fs : FS) (query : Str) :
    (∀ r : FeedItem, r ∈ searchArticles fs query ↔
      ∃ nc ∈ fs, hasMdExt nc.1 = true ∧
        strContains (lowerStr nc.2) (lowerStr query) = true ∧
        parseArticleFile nc.2 = .ok r) ∧
    List.Sorted pubDesc (searchArticles fs query) := by
  constructor
  · intro r
    unfold searchArticles
    rw [(List.perm_insertionSort pubDesc _).mem_iff]
    rw [List.mem_filterMap]
    constructor
    · rintro ⟨nc, hnc, hr⟩
      by_cases hcond :
          (hasMdExt nc.1 && strContains (lowerStr nc.2) (lowerStr query)) = true
      · rw [if_pos hcond] at hr
        rw [Bool.and_eq_true] at hcond
        refine ⟨nc, hnc, hcond.1, hcond.2, ?_⟩
        cases hp : parseArticleFile nc.2 with
        | ok it =>
          rw [hp] at hr
          simp [Except.toOption] at hr
          rw [hr]
        | error e =>
          rw [hp] at hr
          simp [Except.toOption] at hr
      · rw [if_neg hcond] at hr
        simp at hr
    · rintro ⟨nc, hnc, hmd, hq, hp⟩
      refine ⟨nc, hnc, ?_⟩
      rw [if_pos (by rw [hmd, hq]; rfl)]
      rw [hp]
      rfl
  · exact List.sorted_insertionSort pubDesc _

/-! ## C9: bounded concurrency and failure isolation -/

theorem orch_inv_length {fOk sOk : Nat → Bool} {n : Nat} {st : OrchState}
    (h : OrchReach fOk sOk n st) : st.phases.length = n := by
  induction h with
  | init => simp [orchInit]
  | step hr hs ih =>
    cases hs with
    | start pre post heq hlt => simp_all
    | fetched pre post heq => simp_all
    | storedStep pre post heq => simp_all

theorem orch_inv_inFlight {fOk sOk : Nat → Bool} {n : Nat} {st : OrchState}
    (h : OrchReach fOk sOk n st) : inFlight st ≤ maxConcurrent := by
  induction h with
  | init =>
    have hz : inFlight (orchInit n) = 0 := by
      rw [inFlight]
      apply List.countP_eq_zero.mpr
      intro a ha
      rw [List.eq_of_mem_replicate ha]
      decide
    rw [hz]
    decide
  | step hr hs ih =>
    cases hs with
    | start pre post heq hlt =>
      rw [inFlight, heq] at hlt
      dsimp only [inFlight]
      simp [List.countP_append, List.countP_cons, isActive,
        maxConcurrent] at hlt ⊢
      omega
    | fetched pre post heq =>
      rw [inFlight, heq] at ih
      dsimp only [inFlight]
      cases hf : fOk pre.length
      · rw [if_neg (by decide)]
        simp [List.countP_append, List.countP_cons, isActive,
          maxConcurrent] at ih ⊢
        omega
      · rw [if_pos rfl]
        simp [List.countP_append, List.countP_cons, isActive,
          maxConcurrent] at ih ⊢
        omega
    | storedStep pre post heq =>
      rw [inFlight, heq] at ih
      dsimp only [inFlight]
      simp [List.countP_append, List.countP_cons, isActive,
        maxConcurrent] at ih ⊢
      omega

theorem orch_step_measure {fOk sOk : Nat → Bool} {s t : OrchState}
    (h : OrchStep fOk sOk s t) : orchMeasure t < orchMeasure s := by
  cases h with
  | start pre post heq hlt =>
    dsimp only [orchMeasure]
    rw [heq]
    simp [List.map_append, List.sum_append, phaseWeight]
  | fetched pre post heq =>
    dsimp only [orchMeasure]
    rw [heq]
    cases hf : fOk pre.length
    · rw [if_neg (by decide)]
      simp [List.map_append, List.sum_append, phaseWeight]
    · rw [if_pos rfl]
      simp [List.map_append, List.sum_append, phaseWeight]
  | storedStep pre post heq =>
    dsimp only [orchMeasure]
    rw [heq]
    simp [List.map_append, List.sum_append, phaseWeight]

theorem orch_progress {fOk sOk : Nat → Bool} (st : OrchState)
    (hnd : ¬ allDone st) : ∃ t, OrchStep fOk sOk st t := by
  by_cases hf : ∃ pre post, st.phases = pre ++ Phase.fetching :: post
  · obtain ⟨pre, post, h⟩ := hf
    exact ⟨_, .fetched st pre post h⟩
  by_cases hs : ∃ pre post, st.phases = pre ++ Phase.storing :: post
  · obtain ⟨pre, post, h⟩ := hs
    exact ⟨_, .storedStep st pre post h⟩
  have hidle : ∃ pre post, st.phases = pre ++ Phase.idle :: post := by
    rw [allDone] at hnd
    push_neg at hnd
    obtain ⟨p, hp, hne⟩ := hnd
    cases p with
    | idle => exact List.append_of_mem hp
    | fetching => exact absurd (List.append_of_mem hp) hf
    | storing => exact absurd (List.append_of_mem hp) hs
    | done => exact absurd rfl hne
  obtain ⟨pre, post, h⟩ := hidle
  refine ⟨_, .start st pre post h ?_⟩
  have hz : inFlight st = 0 := by
    rw [inFlight]
    apply List.countP_eq_zero.mpr
    intro a ha
    cases a with
    | idle => decide
    | done => decide
    | fetching => exact absurd (List.append_of_mem ha) hf
    | storing => exact absurd (List.append_of_mem ha) hs
  rw [hz]
  decide

/-- The reachable-state invariant tying the store log to the oracles:
a task index is logged as stored exactly when it has finished with both
a successful fetch and a successful store, and a task in the storing
phase always had a successful fetch. -/
def OrchInv (fOk sOk : Nat → Bool) (st : OrchState) : Prop :=
  (∀ i, st.phases[i]? = some Phase.storing → fOk i = true) ∧
  (∀ i, i ∈ st.storedLog ↔
    (st.phases[i]? = some Phase.done ∧ fOk i = true ∧ sOk i = true))

theorem getElem?_middle (pre post : List Phase) (x : Phase) :
    (pre ++ x :: post)[pre.length]? = some x := by
  rw [List.getElem?_append_right (le_refl _)]
  simp

theorem getElem?_middle_ne {pre post : List Phase} (x y : Phase) {j : Nat}
    (hj : j ≠ pre.length) :
    (pre ++ x :: post)[j]? = (pre ++ y :: post)[j]? := by
  rw [List.getElem?_append, List.getElem?_append]
  by_cases h : j < pre.length
  · simp [h]
  · simp only [h, if_false]
    obtain ⟨k, hk⟩ : ∃ k, j - pre.length = k + 1 :=
      ⟨j - pre.length - 1, by omega⟩
    rw [hk]
    simp

theorem orch_inv_main {fOk sOk : Nat → Bool} {n : Nat} {st : OrchState}
    (h : OrchReach fOk sOk n st) : OrchInv fOk sOk st := by
  induction h with
  | init =>
    constructor
    · intro i hi
      exfalso
      rcases List.getElem?_eq_some_iff.mp hi with ⟨hlt, hget⟩
      simp only [orchInit] at hget
      rw [List.getElem_replicate] at hget
      exact absurd hget (by decide)
    · intro i
      constructor
      · intro hmem
        simp [orchInit] at hmem
      · rintro ⟨hdone, _⟩
        exfalso
        rcases List.getElem?_eq_some_iff.mp hdone with ⟨hlt, hget⟩
        simp only [orchInit] at hget
        rw [List.getElem_replicate] at hget
        exact absurd hget (by decide)
  | @step s t hr hs ih =>
    cases hs with
    | start pre post heq hlt =>
      refine ⟨fun i hi => ?_, fun i => ?_⟩
      · dsimp only at hi
        by_cases hieq : i = pre.length
        · subst hieq
          rw [getElem?_middle] at hi
          exact absurd hi (by simp)
        · apply ih.1 i
          rw [heq, ← getElem?_middle_ne Phase.fetching Phase.idle hieq]
          exact hi
      · dsimp only
        rw [ih.2 i, heq]
        by_cases hieq : i = pre.length
        · subst hieq
          rw [getElem?_middle, getElem?_middle]
          simp
        · rw [getElem?_middle_ne Phase.idle Phase.fetching hieq]
    | fetched pre post heq =>
      refine ⟨fun i hi => ?_, fun i => ?_⟩
      · dsimp only at hi
        by_cases hieq : i = pre.length
        · subst hieq
          rw [getElem?_middle] at hi
          cases hf : fOk pre.length
          · rw [hf] at hi
            exact absurd hi (by simp)
          · rfl
        · apply ih.1 i
          rw [heq, ← getElem?_middle_ne
            (if fOk pre.length = true then Phase.storing else Phase.done)
            Phase.fetching hieq]
          exact hi
      · dsimp only
        rw [ih.2 i, heq]
        by_cases hieq : i = pre.length
        · subst hieq
          rw [getElem?_middle, getElem?_middle]
          cases hf : fOk pre.length <;> simp [hf]
        · rw [getElem?_middle_ne Phase.fetching
            (if fOk pre.length = true then Phase.storing else Phase.done) hieq]
    | storedStep pre post heq =>
      have hfok : fOk pre.length = true := by
        apply ih.1
        rw [heq]
        exact getElem?_middle pre post Phase.storing
      refine ⟨fun i hi => ?_, fun i => ?_⟩
      · dsimp only at hi
        by_cases hieq : i = pre.length
        · subst hieq
          rw [getElem?_middle] at hi
          exact absurd hi (by simp)
        · apply ih.1 i
          rw [heq, ← getElem?_middle_ne Phase.done Phase.storing hieq]
          exact hi
      · dsimp only
        by_cases hieq : i = pre.length
        · subst hieq
          rw [getElem?_middle]
          have hnotin : pre.length ∉ s.storedLog := by
            rw [ih.2 pre.length, heq, getElem?_middle]
            simp
          cases hsk : sOk pre.length
          · simp [hnotin]
          · simp [hfok]
        · rw [getElem?_middle_ne Phase.done Phase.storing hieq, ← heq,
            ← ih.2 i]
          cases hsk : sOk pre.length
          · simp
          · simp [hieq]

/-- C9: over the interleaving model of the fetch pipeline of `main.rs`
(per-feed tasks gated by a counting semaphore of size 5, fetch and
store outcomes given by per-feed oracles), every reachable state has at
most 5 tasks holding a slot; from any non-finished state some task can
step, and every step strictly decreases the remaining work, so no
schedule deadlocks or runs forever; and in any terminal state every
task has finished — one feed's fetch or store failure never prevents
the others from being attempted — with feed `i` stored exactly when its
own fetch and store succeeded. -/
theorem c9_bounded_concurrency_failure_isolation
    (fOk sOk : Nat → Bool) (n : Nat) (st : OrchState)
    (h : OrchReach fOk sOk n st) :
    inFlight st ≤ maxConcurrent ∧
    (¬ allDone st → ∃ t, OrchStep fOk sOk st t) ∧
    (∀ t, OrchStep fOk sOk st t → orchMeasure t < orchMeasure st) ∧
    (OrchTerminal fOk sOk st →
      allDone st ∧
      ∀ i, i ∈ st.storedLog ↔ (i < n ∧ fOk i = true ∧ sOk i = true)) := by
  refine ⟨orch_inv_inFlight h, orch_progress st, fun t ht => orch_step_measure ht, ?_⟩
  intro hterm
  have hdone : allDone st := by
    by_contra hnd
    exact hterm (orch_progress st hnd)
  refine ⟨hdone, fun i => ?_⟩
  rw [(orch_inv_main h).2 i]
  have hlen : st.phases.length = n := orch_inv_length h
  constructor
  · rintro ⟨hget, hrest⟩
    rcases List.getElem?_eq_some_iff.mp hget with ⟨hlt, _⟩
    exact ⟨hlen ▸ hlt, hrest⟩
  · rintro ⟨hlt, hrest⟩
    refine ⟨?_, hrest⟩
    have hlt2 : i < st.phases.length := hlen ▸ hlt
    rw [List.getElem?_eq_some_iff]
    exact ⟨hlt2, hdone _ (List.getElem_mem hlt2)⟩

def c9wF : Nat → Bool := fun _ => false

def c9wS : Nat → Bool := fun _ => true

def c9wSt : OrchState := { phases := [Phase.done], storedLog := [] }

theorem c9_bounded_concurrency_witness :
    inFlight c9wSt ≤ maxConcurrent ∧
    (¬ allDone c9wSt → ∃ t, OrchStep c9wF c9wS c9wSt t) ∧
    (∀ t, OrchStep c9wF c9wS c9wSt t → orchMeasure t < orchMeasure c9wSt) ∧
    (OrchTerminal c9wF c9wS c9wSt →
      allDone c9wSt ∧
      ∀ i, i ∈ c9wSt.storedLog ↔ (i < 1 ∧ c9wF i = true ∧ c9wS i = true)) :=
  c9_bounded_concurrency_failure_isolation c9wF c9wS 1 c9wSt
    (OrchReach.step (OrchReach.step OrchReach.init
        (OrchStep.start _ [] [] rfl (by decide)))
      (OrchStep.fetched _ [] [] rfl))

end ZetRss
